import Mathlib

/-!
Shallow embedding of the `autobus` incremental build engine (modules
`autobus.path` and `autobus.base`) together with theorems checking the
natural-language specification against it.

Modelling conventions:
* Machine floats (file modification times) are modelled by `ℚ`; the code only
  compares mtimes with `<`, `>`, `>=`, which is order-faithful.
* The filesystem capability is a function `fs : F → Option ℚ` over an abstract
  artifact type `F`: `fs f = some m` means the file exists with mtime `m`,
  `fs f = none` means it is absent (where `os.path.getmtime` would raise).
* Fallible Python code is embedded in `Except PyError`; loops that Python runs
  unboundedly are given explicit fuel, with a dedicated `fuel` error marking
  exhaustion (distinct from every real Python exception).
* Python object graphs with mutation are embedded as explicit state: targets
  are identified by `Nat` ids and the heap is a function `Nat → TargetBase F`;
  the children attributes walked by `TraversalTree` form a state
  `Nat → List Nat` that the traversal updates, mirroring `list.pop()` on the
  aliased attribute lists.
-/

set_option autoImplicit false

namespace Autobus

/-- Python exceptions raised by the embedded code, plus a `fuel` marker used
only by the fuel-indexed loop embeddings. -/
inductive PyError where
  | attributeError
  | indexError
  | fileNotFoundError
  | fuel
deriving DecidableEq

/-! ## Module `autobus.path` -/

/-- Model of `os.path.isabs` for POSIX paths: the path begins with `/`. -/
def isabs (s : String) : Bool := s.data.head? == some '/'

/-- Model of `os.path.join` on two components: an absolute second component
replaces the first. -/
def pathJoin (a b : String) : String := if isabs b then b else a ++ "/" ++ b

/-- Model of `os.path.normpath`. Path normalization is a thin OS wrapper,
explicitly out of the spec's scope; it is modelled as the identity. -/
def normpath (s : String) : String := s

/-- `Directory(path, parent)` from `autobus.path`, keeping only the fields the
claims touch: the stored path and the optional parent chain. -/
inductive Directory where
  | mk (path : String) (parent : Option Directory)

/-- The stored `path` attribute of a directory. -/
def Directory.path : Directory → String
  | .mk p _ => p

/-- `Directory.absolute_path`: an absolute stored path is returned as is,
otherwise the parent's absolute path is joined in front; a relative path with
no parent hits `None.absolute_path`, an `AttributeError`. -/
def Directory.absolute_path : Directory → Except PyError String
  | .mk p none => if isabs p then .ok p else .error .attributeError
  | .mk p (some d) =>
      if isabs p then .ok p
      else
        match Directory.absolute_path d with
        | .error e => .error e
        | .ok pa => .ok (normpath (pathJoin pa p))

/-- `File` from `autobus.path`: a name plus an optional parent directory. -/
structure File where
  name : String
  parent : Option Directory

/-- `File.__init__(name, parent, extension)`: the stored name is
`"{name}.{ext}"` when a (truthy, i.e. non-empty) extension is given. -/
def File.init (name : String) (parent : Option Directory)
    (extension : Option String) : File :=
  { name :=
      match extension with
      | some e => if e = "" then name else name ++ "." ++ e
      | none => name,
    parent := parent }

/-- `File.absolute_path`: with a parent, join the parent's absolute path with
the name; with no parent, raise
`AttributeError("Need parent to form absolute path")` unconditionally. -/
def File.absolute_path (f : File) : Except PyError String :=
  match f.parent with
  | some d =>
      match Directory.absolute_path d with
      | .error e => .error e
      | .ok pa => .ok (normpath (pathJoin pa f.name))
  | none => .error .attributeError

section FileOps

variable {F : Type}

/-- The capability `exists` consumed by the core: `fs f` is `some mtime`
exactly when the file exists. -/
def file_exists (fs : F → Option ℚ) (f : F) : Bool := (fs f).isSome

/-- The capability `mtime`: `os.path.getmtime` raises on a missing file. -/
def file_mtime (fs : F → Option ℚ) (f : F) : Except PyError ℚ :=
  match fs f with
  | some m => .ok m
  | none => .error .fileNotFoundError

/-- `check_files_exist(file_list)` from `autobus.path`: the loop returns
`False` at the first missing file, `True` when the list is exhausted. -/
def check_files_exist (fs : F → Option ℚ) : List F → Bool
  | [] => true
  | f :: rest => if file_exists fs f then check_files_exist fs rest else false

/-- The loop of `get_least_mtime`: `result` starts at `None` and is replaced
whenever a smaller mtime is seen. -/
def get_least_mtime_loop (fs : F → Option ℚ) :
    List F → Option ℚ → Except PyError (Option ℚ)
  | [], result => .ok result
  | f :: rest, result =>
      match file_mtime fs f with
      | .error e => .error e
      | .ok m =>
          get_least_mtime_loop fs rest
            (match result with
             | none => some m
             | some r => if m < r then some m else some r)

/-- The loop of `get_most_mtime`: `result` is replaced whenever a larger
mtime is seen. -/
def get_most_mtime_loop (fs : F → Option ℚ) :
    List F → Option ℚ → Except PyError (Option ℚ)
  | [], result => .ok result
  | f :: rest, result =>
      match file_mtime fs f with
      | .error e => .error e
      | .ok m =>
          get_most_mtime_loop fs rest
            (match result with
             | none => some m
             | some r => if m > r then some m else some r)

/-- Python's trailing `return result or 0.0`: `None` and `0.0` are falsy, so
both map to `0.0`; every other float is returned unchanged. -/
def orZero : Option ℚ → ℚ
  | none => 0
  | some x => if x = 0 then 0 else x

/-- `get_least_mtime(file_list)` from `autobus.path`. -/
def get_least_mtime (fs : F → Option ℚ) (files : List F) : Except PyError ℚ :=
  (get_least_mtime_loop fs files none).map orZero

/-- `get_most_mtime(file_list)` from `autobus.path`. -/
def get_most_mtime (fs : F → Option ℚ) (files : List F) : Except PyError ℚ :=
  (get_most_mtime_loop fs files none).map orZero

end FileOps

/-! ## Module `autobus.base`: targets and dependency edges -/

/-- `TargetState` from `autobus.base`. -/
inductive TargetState where
  | NOT_SELECTED
  | SELECTED
  | DONE
deriving DecidableEq

/-- `Dependency` from `autobus.base`. Targets are identified by `Nat` ids into
the heap. Python passes the edge itself to the selection predicate; because a
Lean structure cannot mention its own type negatively, the predicate here
receives the edge's observable payload, its target id. -/
structure Dependency where
  target : Nat
  selection_function : Option (Nat → Bool)

/-- `Dependency.selected()`: `self.selection_function(self) if
self.selection_function else True` (a function object is always truthy). -/
def Dependency.selected (d : Dependency) : Bool :=
  match d.selection_function with
  | some f => f d.target
  | none => true

/-- `TargetBase` from `autobus.base`. `_dependencies` holds what Python stores
after `add_dependencies` calls: each call appends one *list* of edges (the
`append`-versus-`extend` distinction is kept, as in the source). `input_files`
and `output_files` default to `[]` as the base-class properties do; concrete
target kinds override them. -/
structure TargetBase (F : Type) where
  _dependencies : List (List Dependency) := []
  dependees : List Nat := []
  input_files : List F := []
  output_files : List F := []
  state : TargetState := .NOT_SELECTED

section Graph

variable {F : Type}

/-- `Dependency.__init__(target, dependee, selection_function)`: stores the
target and predicate and appends `dependee` to `target.dependees` on the heap.
Returns the updated heap and the new edge. -/
def Dependency.init (w : Nat → TargetBase F) (target dependee : Nat)
    (sf : Option (Nat → Bool)) : (Nat → TargetBase F) × Dependency :=
  (Function.update w target
     { w target with dependees := (w target).dependees ++ [dependee] },
   { target := target, selection_function := sf })

/-- `Dependency.from_list(targets, dependee, selection_function)`: the list
comprehension constructs one edge per target, left to right, threading the
heap mutations of each `__init__`. -/
def Dependency.from_list (w : Nat → TargetBase F) (targets : List Nat)
    (dependee : Nat) (sf : Option (Nat → Bool)) :
    (Nat → TargetBase F) × List Dependency :=
  match targets with
  | [] => (w, [])
  | t :: ts =>
      let p := Dependency.init w t dependee sf
      let q := Dependency.from_list p.1 ts dependee sf
      (q.1, p.2 :: q.2)

/-- `TargetBase.add_dependencies(dependencies, selection_function)`: builds the
edge list with `Dependency.from_list` and then `append`s that whole list as a
single element of `self._dependencies` (the source uses `append`, not
`extend`). -/
def add_dependencies (w : Nat → TargetBase F) (self : Nat) (deps : List Nat)
    (sf : Option (Nat → Bool)) : Nat → TargetBase F :=
  let p := Dependency.from_list w deps self sf
  Function.update p.1 self
    { p.1 self with _dependencies := (p.1 self)._dependencies ++ [p.2] }

/-- Python attribute lookup `entry.target` where `entry` is a `list` object
(which is what `_dependencies` actually stores): lists have no attribute
`target`, so this raises `AttributeError`. -/
def attr_target (_entry : List Dependency) : Except PyError Nat :=
  .error .attributeError

/-- Python attribute lookup `entry.selected` on a `list` object: raises
`AttributeError`. -/
def attr_selected (_entry : List Dependency) : Except PyError Bool :=
  .error .attributeError

/-- The list comprehension of `TargetBase.dependencies`:
`[dependency.target for dependency in self._dependencies]`, evaluated element
by element. -/
def TargetBase.dependencies (t : TargetBase F) : Except PyError (List Nat) :=
  t._dependencies.mapM attr_target

/-- The list comprehension of `TargetBase.selected_dependencies`:
`[dependency.target for dependency in self._dependencies if
dependency.selected]`; the filter expression is evaluated before the element
expression. -/
def selected_dependencies_loop :
    List (List Dependency) → Except PyError (List Nat)
  | [] => .ok []
  | e :: rest =>
      match attr_selected e with
      | .error err => .error err
      | .ok s =>
          if s then
            match attr_target e, selected_dependencies_loop rest with
            | .ok tg, .ok tl => .ok (tg :: tl)
            | .error err, _ => .error err
            | _, .error err => .error err
          else
            selected_dependencies_loop rest

/-- `TargetBase.selected_dependencies`. -/
def TargetBase.selected_dependencies (t : TargetBase F) :
    Except PyError (List Nat) :=
  selected_dependencies_loop t._dependencies

/-- `TargetBase.output_files_exist()`. -/
def output_files_exist (fs : F → Option ℚ) (t : TargetBase F) : Bool :=
  check_files_exist fs t.output_files

/-- `TargetBase.input_files_exist()`. -/
def input_files_exist (fs : F → Option ℚ) (t : TargetBase F) : Bool :=
  check_files_exist fs t.input_files

/-- `TargetBase.input_files_most_mtime`: despite the name, the source returns
`get_least_mtime(self.input_files)`, the minimum. -/
def input_files_most_mtime (fs : F → Option ℚ) (t : TargetBase F) :
    Except PyError ℚ :=
  get_least_mtime fs t.input_files

/-- `TargetBase.output_files_least_mtime`: despite the name, the source
returns `get_most_mtime(self.output_files)`, the maximum. -/
def output_files_least_mtime (fs : F → Option ℚ) (t : TargetBase F) :
    Except PyError ℚ :=
  get_most_mtime fs t.output_files

/-- `TargetBase.is_rebuild_needed()`: rebuild when outputs are missing or the
output list is empty, when inputs are missing or the input list is empty, or
when `input_files_most_mtime >= output_files_least_mtime`. -/
def is_rebuild_needed (fs : F → Option ℚ) (t : TargetBase F) :
    Except PyError Bool :=
  if t.output_files.isEmpty || !output_files_exist fs t then .ok true
  else if t.input_files.isEmpty || !input_files_exist fs t then .ok true
  else
    match input_files_most_mtime fs t with
    | .error e => .error e
    | .ok a =>
        match output_files_least_mtime fs t with
        | .error e => .error e
        | .ok b => if a ≥ b then .ok true else .ok false

/-- The loop of `TargetBase.check_output_files()`: raise `FileNotFoundError`
at the first missing output. -/
def check_output_files_loop (fs : F → Option ℚ) :
    List F → Except PyError Unit
  | [] => .ok ()
  | f :: rest =>
      if file_exists fs f then check_output_files_loop fs rest
      else .error .fileNotFoundError

/-- `TargetBase.check_output_files()`. -/
def check_output_files (fs : F → Option ℚ) (t : TargetBase F) :
    Except PyError Unit :=
  check_output_files_loop fs t.output_files

end Graph

/-! ## Module `autobus.base`: `TraversalTree`

The traversed structure is a heap of children attributes `σ : Nat → List Nat`
(node id to its children list).  Each frame of the Python stack aliases the
children list of the node whose `getattr` produced it, so the stack is
embedded as the list of those owner nodes (top first) and `stack[-1].pop()`
becomes an update of `σ` at the top owner.  The `callable(children)` branch
(children supplied by a method) is not exercised by any claim; the attribute
form is modelled. -/

/-- One run of the `while` loop of `TraversalTree.get_leaves`, with fuel.
`stack[-1].pop()` pops the *last* element of the top frame and mutates the
owner's children attribute; an empty top frame makes that pop raise
`IndexError`. -/
def getLeavesLoop : Nat → (Nat → List Nat) → List Nat → Finset Nat →
    Except PyError ((Nat → List Nat) × Finset Nat)
  | 0, _, _, _ => .error .fuel
  | _ + 1, σ, [], acc => .ok (σ, acc)
  | fuel + 1, σ, owner :: rest, acc =>
      match (σ owner).getLast? with
      | none => .error .indexError
      | some current =>
          let frame := (σ owner).dropLast
          let σ' := Function.update σ owner frame
          let stack' := if frame.isEmpty then rest else owner :: rest
          let children := σ' current
          if children.isEmpty then
            getLeavesLoop fuel σ' stack' (insert current acc)
          else
            getLeavesLoop fuel σ' (current :: stack') acc

/-- `TraversalTree(root, field).get_leaves()`: the initial stack holds the
root's children list (owned by `root`); the result is the final heap together
with the `leaves` set. -/
def get_leaves (fuel : Nat) (σ : Nat → List Nat) (root : Nat) :
    Except PyError ((Nat → List Nat) × Finset Nat) :=
  getLeavesLoop fuel σ [root] ∅

/-- One run of the `while` loop of `TraversalTree.find`, with fuel.  The pop
happens before the equality test, so an early `return True` still leaves the
popped state behind; a node with empty children contributes nothing. -/
def findLoop : Nat → (Nat → List Nat) → List Nat → Nat →
    Except PyError ((Nat → List Nat) × Bool)
  | 0, _, _, _ => .error .fuel
  | _ + 1, σ, [], _ => .ok (σ, false)
  | fuel + 1, σ, owner :: rest, node =>
      match (σ owner).getLast? with
      | none => .error .indexError
      | some current =>
          let frame := (σ owner).dropLast
          let σ' := Function.update σ owner frame
          if current = node then .ok (σ', true)
          else
            let stack' := if frame.isEmpty then rest else owner :: rest
            let children := σ' current
            if children.isEmpty then findLoop fuel σ' stack' node
            else findLoop fuel σ' (current :: stack') node

/-- `TraversalTree(root, field).find(node)`. -/
def find (fuel : Nat) (σ : Nat → List Nat) (root : Nat) (node : Nat) :
    Except PyError ((Nat → List Nat) × Bool) :=
  findLoop fuel σ [root] node

/-! ## Specification-side trees

`STree` is a finite rose tree of node labels; `STree.rep σ t` states that the
children attributes in `σ` realize `t`.  These are the specification's view of
"tree-shaped structures" against which the traversal is verified. -/

/-- A finite labelled rose tree. -/
inductive STree where
  | node (label : Nat) (children : List STree)

/-- The label at the root of a tree. -/
def STree.label : STree → Nat
  | .node n _ => n

mutual

/-- Number of nodes of a tree. -/
def STree.size : STree → Nat
  | .node _ cs => 1 + STree.sizeList cs

/-- Total number of nodes of a list of trees. -/
def STree.sizeList : List STree → Nat
  | [] => 0
  | t :: ts => STree.size t + STree.sizeList ts

end

mutual

/-- All labels of a tree, root first. -/
def STree.labels : STree → List Nat
  | .node n cs => n :: STree.labelsList cs

/-- All labels of a list of trees, in order. -/
def STree.labelsList : List STree → List Nat
  | [] => []
  | t :: ts => STree.labels t ++ STree.labelsList ts

end

mutual

/-- The set of labels of childless nodes of a tree. -/
def STree.leafLabels : STree → Finset Nat
  | .node n [] => {n}
  | .node _ (c :: cs) => STree.leafLabels c ∪ STree.leafLabelsList cs

/-- The set of labels of childless nodes of a list of trees. -/
def STree.leafLabelsList : List STree → Finset Nat
  | [] => ∅
  | t :: ts => STree.leafLabels t ∪ STree.leafLabelsList ts

end

mutual

/-- `rep σ t`: the heap `σ` stores, at every node of `t`, exactly the
children recorded in `t`. -/
def STree.rep (σ : Nat → List Nat) : STree → Bool
  | .node n cs =>
      decide (σ n = cs.map STree.label) && STree.repList σ cs

/-- `repList σ ts`: every tree of `ts` is realized in `σ`. -/
def STree.repList (σ : Nat → List Nat) : List STree → Bool
  | [] => true
  | t :: ts => STree.rep σ t && STree.repList σ ts

end

/-- All tree labels across a stack of specification frames (owner, remaining
subtrees), in order. -/
def framesAllLabels : List (Nat × List STree) → List Nat
  | [] => []
  | p :: fs => STree.labelsList p.2 ++ framesAllLabels fs

/-- The leaf labels contributed by a stack of specification frames. -/
def framesLeaves : List (Nat × List STree) → Finset Nat
  | [] => ∅
  | p :: fs => STree.leafLabelsList p.2 ∪ framesLeaves fs

/-- Total node count across a stack of specification frames. -/
def framesSize : List (Nat × List STree) → Nat
  | [] => 0
  | p :: fs => STree.sizeList p.2 + framesSize fs

/-- One specification frame is realized: the owner's children attribute lists
exactly the roots of the remaining subtrees, the frame is non-empty (Python
removes emptied frames right away, and an initially empty one raises), and
every remaining subtree is realized in the heap. -/
def FrameOk (σ : Nat → List Nat) (p : Nat × List STree) : Prop :=
  σ p.1 = p.2.map STree.label ∧ p.2 ≠ [] ∧ STree.repList σ p.2 = true

/-! ## Specification-side minimum and maximum of a list of timestamps -/

/-- The minimum of a list of timestamps, `none` for the empty list. -/
def listMin : List ℚ → Option ℚ
  | [] => none
  | m :: ms => some (ms.foldl min m)

/-- The maximum of a list of timestamps, `none` for the empty list. -/
def listMax : List ℚ → Option ℚ
  | [] => none
  | m :: ms => some (ms.foldl max m)

/-! ## Concrete instances used by counterexamples and witnesses -/

/-- A heap of fresh targets (every id maps to a default `TargetBase`). -/
def w0 : Nat → TargetBase Nat := fun _ => {}

/-- The spec's example tree: root `0` has children `[X, Y] = [1, 2]`, `X = 1`
is childless, `Y = 2` has the single childless child `Z = 3`. -/
def sig0 : Nat → List Nat := fun n =>
  match n with
  | 0 => [1, 2]
  | 2 => [3]
  | _ => []

/-- The subtrees below root `0` of `sig0`, as specification trees. -/
def ts0 : List STree := [.node 1 [], .node 2 [.node 3 []]]

/-- An acyclic children graph that is not a tree: node `3` is shared, reached
both via `1` and via `2`, and has the single child `4`. -/
def sigd : Nat → List Nat := fun n =>
  match n with
  | 0 => [1, 2]
  | 1 => [3]
  | 2 => [3]
  | 3 => [4]
  | _ => []

/-- A filesystem with files `1, 2, 3` at mtimes `5, 10, 20`. -/
def fs1 : Nat → Option ℚ := fun n =>
  match n with
  | 1 => some 5
  | 2 => some 10
  | 3 => some 20
  | _ => none

/-! ## Helper lemmas: dependency graph -/

theorem from_list_dependees_mono {F : Type} :
    ∀ (ts : List Nat) (w : Nat → TargetBase F) (dep : Nat)
      (sf : Option (Nat → Bool)) (a x : Nat),
      x ∈ (w a).dependees →
      x ∈ ((Dependency.from_list w ts dep sf).1 a).dependees
  | [], _, _, _, _, _, h => h
  | t :: ts, w, dep, sf, a, x, h => by
      apply from_list_dependees_mono ts _ dep sf a x
      by_cases hat : a = t
      · subst hat
        simp only [Dependency.init, Function.update_same]
        exact List.mem_append.mpr (.inl h)
      · simpa [Dependency.init, Function.update_noteq hat] using h

theorem from_list_dependees_mem {F : Type} :
    ∀ (ts : List Nat) (w : Nat → TargetBase F) (dep : Nat)
      (sf : Option (Nat → Bool)) (a : Nat), a ∈ ts →
      dep ∈ ((Dependency.from_list w ts dep sf).1 a).dependees
  | [], _, _, _, _, h => by simp at h
  | t :: ts, w, dep, sf, a, h => by
      rcases List.mem_cons.mp h with rfl | hmem
      · apply from_list_dependees_mono ts _ dep sf a dep
        simp [Dependency.init, Function.update_same]
      · exact from_list_dependees_mem ts _ dep sf a hmem

theorem add_dependencies_dependees_eq {F : Type} (w : Nat → TargetBase F)
    (self : Nat) (ts : List Nat) (sf : Option (Nat → Bool)) (a : Nat) :
    ((add_dependencies w self ts sf) a).dependees =
      ((Dependency.from_list w ts self sf).1 a).dependees := by
  unfold add_dependencies
  by_cases h : a = self
  · subst h; simp [Function.update_same]
  · simp [Function.update_noteq h]

/-! ## Helper lemmas: existence and mtime aggregation -/

theorem check_files_exist_iff {F : Type} (fs : F → Option ℚ) :
    ∀ files : List F,
      check_files_exist fs files = true ↔ ∀ f ∈ files, fs f ≠ none
  | [] => by simp [check_files_exist]
  | f :: rest => by
      rcases h : fs f with _ | m
      · simp [check_files_exist, file_exists, h]
      · simp only [check_files_exist, file_exists, h, Option.isSome_some,
          if_true, check_files_exist_iff fs rest]
        constructor
        · intro hall g hg
          rcases List.mem_cons.mp hg with rfl | hg
          · simp [h]
          · exact hall g hg
        · intro hall g hg
          exact hall g (List.mem_cons_of_mem f hg)

theorem orZero_some (x : ℚ) : orZero (some x) = x := by
  by_cases h : x = 0 <;> simp [orZero, h]

theorem if_lt_eq_min (m v : ℚ) : (if m < v then m else v) = min v m := by
  rcases le_or_lt v m with h | h
  · simp [not_lt.mpr h, min_eq_left h]
  · simp [h, min_eq_right h.le]

theorem if_gt_eq_max (m v : ℚ) : (if m > v then m else v) = max v m := by
  rcases le_or_lt m v with h | h
  · simp [not_lt.mpr h, max_eq_left h]
  · simp [h, max_eq_right h.le]

theorem get_least_mtime_loop_some {F : Type} (fs : F → Option ℚ) :
    ∀ (files : List F) (v : ℚ), (∀ f ∈ files, fs f ≠ none) →
      get_least_mtime_loop fs files (some v) =
        .ok (some ((files.filterMap fs).foldl min v))
  | [], _, _ => rfl
  | f :: rest, v, hex => by
      rcases h : fs f with _ | m
      · exact absurd h (hex f (List.mem_cons_self f rest))
      · have ih := get_least_mtime_loop_some fs rest (min v m)
          (fun g hg => hex g (List.mem_cons_of_mem f hg))
        simp only [get_least_mtime_loop, file_mtime, h, List.filterMap_cons,
          List.foldl_cons, ← apply_ite some, if_lt_eq_min]
        exact ih

theorem get_most_mtime_loop_some {F : Type} (fs : F → Option ℚ) :
    ∀ (files : List F) (v : ℚ), (∀ f ∈ files, fs f ≠ none) →
      get_most_mtime_loop fs files (some v) =
        .ok (some ((files.filterMap fs).foldl max v))
  | [], _, _ => rfl
  | f :: rest, v, hex => by
      rcases h : fs f with _ | m
      · exact absurd h (hex f (List.mem_cons_self f rest))
      · have ih := get_most_mtime_loop_some fs rest (max v m)
          (fun g hg => hex g (List.mem_cons_of_mem f hg))
        simp only [get_most_mtime_loop, file_mtime, h, List.filterMap_cons,
          List.foldl_cons, ← apply_ite some, if_gt_eq_max]
        exact ih

theorem get_least_mtime_eq_listMin {F : Type} (fs : F → Option ℚ)
    (files : List F) (hne : files ≠ []) (hex : ∀ f ∈ files, fs f ≠ none) :
    ∃ a, get_least_mtime fs files = .ok a ∧
      listMin (files.filterMap fs) = some a := by
  cases files with
  | nil => exact absurd rfl hne
  | cons f rest =>
      rcases h : fs f with _ | m
      · exact absurd h (hex f (List.mem_cons_self f rest))
      · have hloop := get_least_mtime_loop_some fs rest m
          (fun g hg => hex g (List.mem_cons_of_mem f hg))
        refine ⟨(rest.filterMap fs).foldl min m, ?_, ?_⟩
        · simp [get_least_mtime, get_least_mtime_loop, file_mtime, h, hloop,
            Except.map, orZero_some]
        · simp [listMin, List.filterMap_cons, h]

theorem get_most_mtime_eq_listMax {F : Type} (fs : F → Option ℚ)
    (files : List F) (hne : files ≠ []) (hex : ∀ f ∈ files, fs f ≠ none) :
    ∃ b, get_most_mtime fs files = .ok b ∧
      listMax (files.filterMap fs) = some b := by
  cases files with
  | nil => exact absurd rfl hne
  | cons f rest =>
      rcases h : fs f with _ | m
      · exact absurd h (hex f (List.mem_cons_self f rest))
      · have hloop := get_most_mtime_loop_some fs rest m
          (fun g hg => hex g (List.mem_cons_of_mem f hg))
        refine ⟨(rest.filterMap fs).foldl max m, ?_, ?_⟩
        · simp [get_most_mtime, get_most_mtime_loop, file_mtime, h, hloop,
            Except.map, orZero_some]
        · simp [listMax, List.filterMap_cons, h]

theorem check_output_files_loop_ok {F : Type} (fs : F → Option ℚ) :
    ∀ files : List F,
      check_output_files_loop fs files = .ok () ↔ ∀ f ∈ files, fs f ≠ none
  | [] => by simp [check_output_files_loop]
  | f :: rest => by
      rcases h : fs f with _ | m
      · simp [check_output_files_loop, file_exists, h]
      · simp only [check_output_files_loop, file_exists, h, Option.isSome_some,
          if_true, check_output_files_loop_ok fs rest]
        constructor
        · intro hall g hg
          rcases List.mem_cons.mp hg with rfl | hg
          · simp [h]
          · exact hall g hg
        · intro hall g hg
          exact hall g (List.mem_cons_of_mem f hg)

theorem check_output_files_loop_error {F : Type} (fs : F → Option ℚ) :
    ∀ files : List F,
      check_output_files_loop fs files = .error .fileNotFoundError ↔
        ∃ f ∈ files, fs f = none
  | [] => by simp [check_output_files_loop]
  | f :: rest => by
      rcases h : fs f with _ | m
      · simp [check_output_files_loop, file_exists, h]
      · simp only [check_output_files_loop, file_exists, h, Option.isSome_some,
          if_true, check_output_files_loop_error fs rest]
        constructor
        · rintro ⟨g, hg, hnone⟩
          exact ⟨g, List.mem_cons_of_mem f hg, hnone⟩
        · rintro ⟨g, hg, hnone⟩
          rcases List.mem_cons.mp hg with rfl | hg
          · exact absurd hnone (by simp [h])
          · exact ⟨g, hg, hnone⟩

theorem foldl_min_le (ms : List ℚ) :
    ∀ m x : ℚ, x ∈ m :: ms → ms.foldl min m ≤ x := by
  induction ms with
  | nil =>
      intro m x hx
      rcases List.mem_singleton.mp hx with rfl
      exact le_refl x
  | cons y ys ih =>
      intro m x hx
      rcases List.mem_cons.mp hx with rfl | hx
      · exact (ih (min x y) (min x y) (List.mem_cons_self _ _)).trans
          (min_le_left x y)
      · rcases List.mem_cons.mp hx with rfl | hx
        · exact (ih (min m x) (min m x) (List.mem_cons_self _ _)).trans
            (min_le_right m x)
        · exact ih (min m y) x (List.mem_cons_of_mem _ hx)

theorem foldl_max_le (ms : List ℚ) :
    ∀ m x : ℚ, x ∈ m :: ms → x ≤ ms.foldl max m := by
  induction ms with
  | nil =>
      intro m x hx
      rcases List.mem_singleton.mp hx with rfl
      exact le_refl x
  | cons y ys ih =>
      intro m x hx
      rcases List.mem_cons.mp hx with rfl | hx
      · exact (le_max_left x y).trans
          (ih (max x y) (max x y) (List.mem_cons_self _ _))
      · rcases List.mem_cons.mp hx with rfl | hx
        · exact (le_max_right m x).trans
            (ih (max m x) (max m x) (List.mem_cons_self _ _))
        · exact ih (max m y) x (List.mem_cons_of_mem _ hx)

theorem foldl_min_mem (ms : List ℚ) : ∀ m : ℚ, ms.foldl min m ∈ m :: ms := by
  induction ms with
  | nil => intro m; simp
  | cons y ys ih =>
      intro m
      have h := ih (min m y)
      rcases List.mem_cons.mp h with he | hm
      · rw [List.foldl_cons, he]
        rcases min_choice m y with h1 | h1 <;> simp [h1]
      · rw [List.foldl_cons]
        exact List.mem_cons_of_mem _ (List.mem_cons_of_mem _ hm)

theorem foldl_max_mem (ms : List ℚ) : ∀ m : ℚ, ms.foldl max m ∈ m :: ms := by
  induction ms with
  | nil => intro m; simp
  | cons y ys ih =>
      intro m
      have h := ih (max m y)
      rcases List.mem_cons.mp h with he | hm
      · rw [List.foldl_cons, he]
        rcases max_choice m y with h1 | h1 <;> simp [h1]
      · rw [List.foldl_cons]
        exact List.mem_cons_of_mem _ (List.mem_cons_of_mem _ hm)

/-- `listMin` really is the minimum: its value is in the list and below every
element. -/
theorem listMin_is_min (ms : List ℚ) (a : ℚ) (h : listMin ms = some a) :
    a ∈ ms ∧ ∀ x ∈ ms, a ≤ x := by
  cases ms with
  | nil => exact absurd h (by simp [listMin])
  | cons m rest =>
      have ha : rest.foldl min m = a := by
        simpa [listMin] using h
      exact ⟨ha ▸ foldl_min_mem rest m, fun x hx =>
        ha ▸ foldl_min_le rest m x hx⟩

/-- `listMax` really is the maximum: its value is in the list and above every
element. -/
theorem listMax_is_max (ms : List ℚ) (b : ℚ) (h : listMax ms = some b) :
    b ∈ ms ∧ ∀ x ∈ ms, x ≤ b := by
  cases ms with
  | nil => exact absurd h (by simp [listMax])
  | cons m rest =>
      have hb : rest.foldl max m = b := by
        simpa [listMax] using h
      exact ⟨hb ▸ foldl_max_mem rest m, fun x hx =>
        hb ▸ foldl_max_le rest m x hx⟩

/-! ## Claim theorems: staleness engine -/

/-- C1: `is_rebuild_needed` never raises, and returns `ok true` exactly when
the output list is empty or some output file is missing, or the input list is
empty or some input file is missing, or the minimum mtime over the input
files is at least the maximum mtime over the output files; in the remaining
case it returns `ok false`. -/
theorem is_rebuild_needed_iff {F : Type} (fs : F → Option ℚ)
    (t : TargetBase F) :
    (is_rebuild_needed fs t = .ok true ∨
      is_rebuild_needed fs t = .ok false) ∧
    (is_rebuild_needed fs t = .ok true ↔
      (t.output_files = [] ∨ (∃ f ∈ t.output_files, fs f = none) ∨
       t.input_files = [] ∨ (∃ f ∈ t.input_files, fs f = none) ∨
       (∃ a b, listMin (t.input_files.filterMap fs) = some a ∧
         listMax (t.output_files.filterMap fs) = some b ∧ b ≤ a))) := by
  by_cases hoe : t.output_files = []
  · have hres : is_rebuild_needed fs t = .ok true := by
      simp [is_rebuild_needed, hoe]
    exact ⟨Or.inl hres, by rw [hres]; simp [hoe]⟩
  by_cases hox : ∀ f ∈ t.output_files, fs f ≠ none
  swap
  · have hfe : output_files_exist fs t = false := by
      cases hc : output_files_exist fs t
      · rfl
      · exact absurd ((check_files_exist_iff fs t.output_files).mp hc) hox
    have hres : is_rebuild_needed fs t = .ok true := by
      simp [is_rebuild_needed, hfe]
    push_neg at hox
    obtain ⟨g, hg, hgn⟩ := hox
    refine ⟨Or.inl hres, ?_⟩
    rw [hres]
    exact ⟨fun _ => Or.inr (Or.inl ⟨g, hg, hgn⟩), fun _ => rfl⟩
  have hfe : output_files_exist fs t = true :=
    (check_files_exist_iff fs t.output_files).mpr hox
  by_cases hie : t.input_files = []
  · have hres : is_rebuild_needed fs t = .ok true := by
      simp [is_rebuild_needed, hfe, hie]
    refine ⟨Or.inl hres, ?_⟩
    rw [hres]
    exact ⟨fun _ => Or.inr (Or.inr (Or.inl hie)), fun _ => rfl⟩
  by_cases hix : ∀ f ∈ t.input_files, fs f ≠ none
  swap
  · have hfi : input_files_exist fs t = false := by
      cases hc : input_files_exist fs t
      · rfl
      · exact absurd ((check_files_exist_iff fs t.input_files).mp hc) hix
    have hres : is_rebuild_needed fs t = .ok true := by
      simp [is_rebuild_needed, hfe, hfi]
    push_neg at hix
    obtain ⟨g, hg, hgn⟩ := hix
    refine ⟨Or.inl hres, ?_⟩
    rw [hres]
    exact ⟨fun _ => Or.inr (Or.inr (Or.inr (Or.inl ⟨g, hg, hgn⟩))),
      fun _ => rfl⟩
  have hfi : input_files_exist fs t = true :=
    (check_files_exist_iff fs t.input_files).mpr hix
  obtain ⟨a, hga, hma⟩ := get_least_mtime_eq_listMin fs t.input_files hie hix
  obtain ⟨b, hgb, hmb⟩ := get_most_mtime_eq_listMax fs t.output_files hoe hox
  have hoi : t.output_files.isEmpty = false := by
    simp [List.isEmpty_iff, hoe]
  have hii : t.input_files.isEmpty = false := by
    simp [List.isEmpty_iff, hie]
  have hres : is_rebuild_needed fs t =
      if a ≥ b then .ok true else .ok false := by
    rw [is_rebuild_needed]
    rw [hoi, hfe, hii, hfi]
    simp only [Bool.not_true, Bool.or_false, Bool.false_or, if_neg,
      Bool.false_eq_true, not_false_iff, if_false]
    rw [show input_files_most_mtime fs t = get_least_mtime fs t.input_files
        from rfl,
      show output_files_least_mtime fs t = get_most_mtime fs t.output_files
        from rfl, hga, hgb]
  rcases le_or_lt b a with hba | hab
  · have hres' : is_rebuild_needed fs t = .ok true := by
      rw [hres, if_pos hba]
    refine ⟨Or.inl hres', ?_⟩
    rw [hres']
    exact ⟨fun _ =>
      Or.inr (Or.inr (Or.inr (Or.inr ⟨a, b, hma, hmb, hba⟩))), fun _ => rfl⟩
  · have hres' : is_rebuild_needed fs t = .ok false := by
      rw [hres, if_neg (not_le.mpr hab)]
    refine ⟨Or.inr hres', ?_⟩
    rw [hres']
    constructor
    · intro hc
      exact absurd hc (by simp)
    · rintro (h | h | h | h | ⟨a', b', ha', hb', hab'⟩)
      · exact absurd h hoe
      · obtain ⟨g, hg, hgn⟩ := h
        exact absurd hgn (hox g hg)
      · exact absurd h hie
      · obtain ⟨g, hg, hgn⟩ := h
        exact absurd hgn (hix g hg)
      · rw [hma] at ha'
        rw [hmb] at hb'
        cases Option.some.inj ha'
        cases Option.some.inj hb'
        exact absurd hab' (not_le.mpr hab)

/-- C1 witness: a target whose single output `3` exists but whose single
input `9` is missing rebuilds. -/
theorem is_rebuild_needed_iff_witness :
    is_rebuild_needed fs1
      { input_files := [9], output_files := [3] } = .ok true :=
  (is_rebuild_needed_iff fs1 _).2.mpr
    (Or.inr (Or.inr (Or.inr (Or.inl ⟨9, by simp, rfl⟩))))

/-- C10: both mtime aggregation helpers are total on the empty list and
return `0` (Python `0.0`), so `input_files_most_mtime` and
`output_files_least_mtime` are defined for a target with no input or output
files. -/
theorem mtime_empty_defaults {F : Type} (fs : F → Option ℚ)
    (t : TargetBase F) (hi : t.input_files = []) (ho : t.output_files = []) :
    get_least_mtime fs [] = .ok 0 ∧ get_most_mtime fs [] = .ok 0 ∧
    input_files_most_mtime fs t = .ok 0 ∧
    output_files_least_mtime fs t = .ok 0 := by
  refine ⟨rfl, rfl, ?_, ?_⟩
  · simp [input_files_most_mtime, hi, get_least_mtime, get_least_mtime_loop,
      Except.map, orZero]
  · simp [output_files_least_mtime, ho, get_most_mtime, get_most_mtime_loop,
      Except.map, orZero]

/-- C10 witness: the empty-list defaults at a concrete filesystem and a
concrete (default, file-less) target. -/
theorem mtime_empty_defaults_witness :
    get_least_mtime (fun _ : Nat => (none : Option ℚ)) [] = .ok 0 ∧
    get_most_mtime (fun _ : Nat => (none : Option ℚ)) [] = .ok 0 ∧
    input_files_most_mtime (fun _ : Nat => (none : Option ℚ))
      ({} : TargetBase Nat) = .ok 0 ∧
    output_files_least_mtime (fun _ : Nat => (none : Option ℚ))
      ({} : TargetBase Nat) = .ok 0 :=
  mtime_empty_defaults _ _ rfl rfl

/-- C8: `check_output_files` raises the missing-output error exactly when
some declared output file is absent; when every output exists — including the
empty output list — it returns normally (the embedding is a pure function, so
it changes nothing). -/
theorem check_output_files_iff {F : Type} (fs : F → Option ℚ)
    (t : TargetBase F) :
    (check_output_files fs t = .error .fileNotFoundError ↔
      ∃ f ∈ t.output_files, fs f = none) ∧
    (check_output_files fs t = .ok () ↔
      ∀ f ∈ t.output_files, fs f ≠ none) ∧
    (t.output_files = [] → check_output_files fs t = .ok ()) := by
  refine ⟨check_output_files_loop_error fs t.output_files,
    check_output_files_loop_ok fs t.output_files, ?_⟩
  intro h
  exact (check_output_files_loop_ok fs t.output_files).mpr (by simp [h])

/-- C8 witness: a file-less target passes the output check. -/
theorem check_output_files_iff_witness :
    check_output_files (fun _ : Nat => (none : Option ℚ))
      ({} : TargetBase Nat) = .ok () :=
  (check_output_files_iff (fun _ : Nat => (none : Option ℚ))
    ({} : TargetBase Nat)).2.2 rfl

/-! ## Claim theorems: dependency graph -/

/-- C2 (failing evaluation): after `addDependencies([1, 2], None)` on target
`0`, `_dependencies` holds a single element — the whole two-edge list — and
the `dependencies` property raises `AttributeError` (a Python `list` has no
attribute `target`) instead of returning `[1, 2]`. -/
theorem add_dependencies_append_bug :
    ((add_dependencies w0 0 [1, 2] none) 0)._dependencies =
      [[⟨1, none⟩, ⟨2, none⟩]] ∧
    TargetBase.dependencies ((add_dependencies w0 0 [1, 2] none) 0) =
      .error .attributeError :=
  ⟨rfl, rfl⟩

/-- C3 (failing evaluation): with one dependency added under an always-false
predicate, `selected_dependencies` raises `AttributeError` (the stored entry
is a list, and even on a flat edge the source tests the truthy bound method
`dependency.selected`, never calling it) instead of filtering; the edge's
`selected()` itself does evaluate to `false`. -/
theorem selected_dependencies_attribute_bug :
    TargetBase.selected_dependencies
        ((add_dependencies w0 0 [1] (some fun _ => false)) 0) =
      .error .attributeError ∧
    Dependency.selected ⟨1, some fun _ => false⟩ = false :=
  ⟨rfl, rfl⟩

/-- C7: immediately after `add_dependencies(ts, sf)` on `self`, every target
in `ts` has `self` in its `dependees`, and any existing `dependees`
membership is preserved by any later `add_dependencies` call — `dependees` is
only ever appended to. -/
theorem dependees_invariant {F : Type} (w : Nat → TargetBase F) (self : Nat)
    (ts : List Nat) (sf : Option (Nat → Bool)) :
    (∀ a ∈ ts, self ∈ ((add_dependencies w self ts sf) a).dependees) ∧
    (∀ x u, x ∈ (w u).dependees →
      x ∈ ((add_dependencies w self ts sf) u).dependees) := by
  constructor
  · intro a ha
    rw [add_dependencies_dependees_eq]
    exact from_list_dependees_mem ts w self sf a ha
  · intro x u hx
    rw [add_dependencies_dependees_eq]
    exact from_list_dependees_mono ts w self sf u x hx

/-- C7 witness: after `addDependencies([1, 2], None)` on target `0`, both `1`
and `2` hold `0` in their `dependees`. -/
theorem dependees_invariant_witness :
    0 ∈ ((add_dependencies w0 0 [1, 2] none) 1).dependees ∧
    0 ∈ ((add_dependencies w0 0 [1, 2] none) 2).dependees :=
  ⟨(dependees_invariant w0 0 [1, 2] none).1 1 (by simp),
   (dependees_invariant w0 0 [1, 2] none).1 2 (by simp)⟩

/-! ## Claim theorems: artifact path resolution -/

/-- C9 counterexample: the name `"/a"` is already absolute, yet resolving the
absolute path of a parentless file with that name raises the missing-parent
error instead of succeeding. -/
theorem absolute_path_absolute_name_refuted :
    isabs "/a" = true ∧
    File.absolute_path { name := "/a", parent := none } =
      .error .attributeError :=
  ⟨by decide, rfl⟩

/-- C9 amended: resolving `absolute_path` of a file with no parent always
raises the missing-parent `AttributeError`, whether or not the name is
already absolute; only a file with a parent can resolve. -/
theorem absolute_path_no_parent_error (f : File) (h : f.parent = none) :
    File.absolute_path f = .error .attributeError := by
  simp [File.absolute_path, h]

/-- C9 witness: the no-parent error at a concrete relative name. -/
theorem absolute_path_no_parent_error_witness :
    File.absolute_path { name := "x", parent := none } =
      .error .attributeError :=
  absolute_path_no_parent_error _ rfl

/-! ## Claim theorems: traversal -/

/-- C5 (failing evaluation): on a root whose children collection is empty,
the very first `stack[-1].pop()` pops from an empty list, so both
`get_leaves` and `find` raise `IndexError` instead of returning the empty set
and `False`. -/
theorem empty_children_index_error :
    get_leaves 5 (fun _ => ([] : List Nat)) 0 = .error .indexError ∧
    ∀ n : Nat, find 5 (fun _ => ([] : List Nat)) 0 n = .error .indexError :=
  ⟨rfl, fun _ => rfl⟩

/-- C6 counterexample: on the spec's example tree the root's children
attribute is `[1, 2]` before the `leaves` traversal and `[]` after it — the
traversal mutates the structure it walks, so it is not pure. -/
theorem get_leaves_mutates :
    sig0 0 = [1, 2] ∧
    (get_leaves 10 sig0 0).map (fun p => p.1 0) = .ok [] ∧
    ([] : List Nat) ≠ [1, 2] :=
  ⟨rfl, rfl, by simp⟩

theorem getLeavesLoop_preserves_nil :
    ∀ (fuel : Nat) (σ : Nat → List Nat) (stack : List Nat) (acc : Finset Nat)
      (σ' : Nat → List Nat) (s : Finset Nat) (o : Nat),
      getLeavesLoop fuel σ stack acc = .ok (σ', s) → σ o = [] → σ' o = []
  | 0, σ, stack, acc, σ', s, o, h, ho => by
      simp [getLeavesLoop] at h
  | fuel + 1, σ, [], acc, σ', s, o, h, ho => by
      simp [getLeavesLoop] at h
      rw [← h.1]
      exact ho
  | fuel + 1, σ, owner :: rest, acc, σ', s, o, h, ho => by
      rw [getLeavesLoop] at h
      rcases hlast : (σ owner).getLast? with _ | current
      · rw [hlast] at h
        simp at h
      · rw [hlast] at h
        dsimp only at h
        have hno : owner ≠ o := by
          intro he
          subst he
          rw [ho] at hlast
          simp at hlast
        have ho' : Function.update σ owner (σ owner).dropLast o = [] := by
          rw [Function.update_noteq (Ne.symm hno)]
          exact ho
        split at h
        · exact getLeavesLoop_preserves_nil fuel _ _ _ σ' s o h ho'
        · exact getLeavesLoop_preserves_nil fuel _ _ _ σ' s o h ho'

theorem getLeavesLoop_stack_emptied :
    ∀ (fuel : Nat) (σ : Nat → List Nat) (stack : List Nat) (acc : Finset Nat)
      (σ' : Nat → List Nat) (s : Finset Nat),
      getLeavesLoop fuel σ stack acc = .ok (σ', s) → ∀ o ∈ stack, σ' o = []
  | 0, σ, stack, acc, σ', s, h => by
      simp [getLeavesLoop] at h
  | fuel + 1, σ, [], acc, σ', s, h => by
      intro o ho
      simp at ho
  | fuel + 1, σ, owner :: rest, acc, σ', s, h => by
      rw [getLeavesLoop] at h
      rcases hlast : (σ owner).getLast? with _ | current
      · rw [hlast] at h
        simp at h
      · rw [hlast] at h
        dsimp only at h
        intro o ho
        rcases List.mem_cons.mp ho with rfl | ho
        · by_cases hfe : ((σ o).dropLast).isEmpty
          · have hnil : Function.update σ o (σ o).dropLast o = [] := by
              rw [Function.update_same]
              exact List.isEmpty_iff.mp hfe
            rw [if_pos hfe] at h
            split at h
            · exact getLeavesLoop_preserves_nil fuel _ _ _ σ' s o h hnil
            · exact getLeavesLoop_preserves_nil fuel _ _ _ σ' s o h hnil
          · rw [if_neg hfe] at h
            split at h
            · exact getLeavesLoop_stack_emptied fuel _ _ _ σ' s h o
                (List.mem_cons_self _ _)
            · exact getLeavesLoop_stack_emptied fuel _ _ _ σ' s h o
                (List.mem_cons_of_mem _ (List.mem_cons_self _ _))
        · split at h
          · split at h
            · exact getLeavesLoop_stack_emptied fuel _ _ _ σ' s h o ho
            · exact getLeavesLoop_stack_emptied fuel _ _ _ σ' s h o
                (List.mem_cons_of_mem _ ho)
          · split at h
            · exact getLeavesLoop_stack_emptied fuel _ _ _ σ' s h o
                (List.mem_cons_of_mem _ ho)
            · exact getLeavesLoop_stack_emptied fuel _ _ _ σ' s h o
                (List.mem_cons_of_mem _ (List.mem_cons_of_mem _ ho))

/-- C6 amended: the traversals are not pure — `get_leaves` pops entries from
the children attributes it walks, and whenever it completes successfully the
root's children collection has been emptied (likewise every owner of a frame
that was on the stack). -/
theorem get_leaves_empties_root (fuel : Nat) (σ : Nat → List Nat)
    (root : Nat) (σ' : Nat → List Nat) (s : Finset Nat)
    (h : get_leaves fuel σ root = .ok (σ', s)) : σ' root = [] :=
  getLeavesLoop_stack_emptied fuel σ [root] ∅ σ' s h root
    (List.mem_singleton.mpr rfl)

/-- C6 witness: the successful run on the spec's example tree ends with the
root's children attribute empty. -/
theorem get_leaves_empties_root_witness :
    ∃ p : (Nat → List Nat) × Finset Nat,
      get_leaves 10 sig0 0 = .ok p ∧ p.1 0 = [] := by
  refine ⟨_, rfl, ?_⟩
  exact get_leaves_empties_root 10 sig0 0 _ _ rfl

/-! ## Claim C4: leaves traversal against the tree specification -/


theorem labelsList_append : ∀ (l₁ l₂ : List STree),
    STree.labelsList (l₁ ++ l₂) = STree.labelsList l₁ ++ STree.labelsList l₂
  | [], l₂ => by simp [STree.labelsList]
  | t :: ts, l₂ => by
      simp [STree.labelsList, labelsList_append ts l₂]

theorem leafLabelsList_append : ∀ (l₁ l₂ : List STree),
    STree.leafLabelsList (l₁ ++ l₂) =
      STree.leafLabelsList l₁ ∪ STree.leafLabelsList l₂
  | [], l₂ => by simp [STree.leafLabelsList]
  | t :: ts, l₂ => by
      simp [STree.leafLabelsList, leafLabelsList_append ts l₂,
        Finset.union_assoc]

theorem sizeList_append : ∀ (l₁ l₂ : List STree),
    STree.sizeList (l₁ ++ l₂) = STree.sizeList l₁ + STree.sizeList l₂
  | [], l₂ => by simp [STree.sizeList]
  | t :: ts, l₂ => by
      simp [STree.sizeList, sizeList_append ts l₂]
      omega

theorem repList_append (σ : Nat → List Nat) : ∀ (l₁ l₂ : List STree),
    STree.repList σ (l₁ ++ l₂) =
      (STree.repList σ l₁ && STree.repList σ l₂)
  | [], l₂ => by simp [STree.repList]
  | t :: ts, l₂ => by
      simp [STree.repList, repList_append σ ts l₂, Bool.and_assoc]

theorem leafLabels_node (n : Nat) (cs : List STree) (h : cs ≠ []) :
    STree.leafLabels (.node n cs) = STree.leafLabelsList cs := by
  cases cs with
  | nil => exact absurd rfl h
  | cons c cs' => rfl

theorem label_mem_labels (t : STree) : t.label ∈ STree.labels t := by
  cases t
  simp [STree.labels, STree.label]

mutual

theorem rep_congr (σ σ' : Nat → List Nat) :
    ∀ t : STree, (∀ m ∈ STree.labels t, σ' m = σ m) →
      STree.rep σ' t = STree.rep σ t
  | .node n cs, h => by
      have hn : σ' n = σ n := h n (by simp [STree.labels])
      rw [STree.rep, STree.rep, hn,
        repList_congr σ σ' cs
          (fun m hm => h m (by simp [STree.labels, hm]))]

theorem repList_congr (σ σ' : Nat → List Nat) :
    ∀ ts : List STree, (∀ m ∈ STree.labelsList ts, σ' m = σ m) →
      STree.repList σ' ts = STree.repList σ ts
  | [], _ => rfl
  | t :: ts, h => by
      rw [STree.repList, STree.repList,
        rep_congr σ σ' t
          (fun m hm => h m (by simp [STree.labelsList, hm])),
        repList_congr σ σ' ts
          (fun m hm => h m (by simp [STree.labelsList, hm]))]

end

mutual

theorem leafLabels_subset :
    ∀ (t : STree) (x : Nat), x ∈ STree.leafLabels t → x ∈ STree.labels t
  | .node n [], x, hx => by
      rw [STree.leafLabels] at hx
      simp at hx
      simp [STree.labels, STree.labelsList, hx]
  | .node n (c :: cs), x, hx => by
      rw [STree.labels]
      have hx' : x ∈ STree.leafLabelsList (c :: cs) := by
        rw [STree.leafLabelsList]
        exact hx
      exact List.mem_cons_of_mem n (leafLabelsList_subset (c :: cs) x hx')

theorem leafLabelsList_subset :
    ∀ (ts : List STree) (x : Nat), x ∈ STree.leafLabelsList ts →
      x ∈ STree.labelsList ts
  | [], x, hx => by simp [STree.leafLabelsList] at hx
  | t :: ts, x, hx => by
      rw [STree.leafLabelsList] at hx
      rw [STree.labelsList]
      rcases Finset.mem_union.mp hx with hx | hx
      · exact List.mem_append.mpr (.inl (leafLabels_subset t x hx))
      · exact List.mem_append.mpr (.inr (leafLabelsList_subset ts x hx))

end

theorem label_mem_labelsList : ∀ (ts : List STree) (t : STree), t ∈ ts →
    t.label ∈ STree.labelsList ts
  | [], t, h => absurd h (List.not_mem_nil t)
  | t' :: ts, t, h => by
      rw [STree.labelsList]
      rcases List.mem_cons.mp h with rfl | h
      · exact List.mem_append.mpr (.inl (label_mem_labels t))
      · exact List.mem_append.mpr (.inr (label_mem_labelsList ts t h))


theorem nodup_shift_one {n : Nat} {O R : List Nat}
    (h1 : (O ++ (n :: R)).Nodup) : (O ++ R).Nodup :=
  List.Nodup.sublist
    ((List.sublist_cons_self n R).append_left O) h1

theorem nodup_shift_keep {o n : Nat} {O A R : List Nat}
    (ho : o ∉ O ++ (A ++ n :: R))
    (h1 : (O ++ (A ++ n :: R)).Nodup) : (o :: (O ++ (A ++ R))).Nodup := by
  have hs : List.Sublist (O ++ (A ++ R)) (O ++ (A ++ n :: R)) :=
    ((List.sublist_cons_self n R).append_left A).append_left O
  refine List.nodup_cons.mpr ⟨fun hmem => ho (hs.subset hmem), h1.sublist hs⟩

theorem nodup_shift_push {n : Nat} {O C R : List Nat}
    (h1 : (O ++ (n :: (C ++ R))).Nodup) : (n :: (O ++ (C ++ R))).Nodup := by
  simp only [List.nodup_append, List.nodup_cons, List.mem_append,
    List.mem_cons, List.disjoint_left, not_or] at h1 ⊢
  obtain ⟨hO, ⟨⟨hnC, hnR⟩, hC, hR, hCR⟩, hOd⟩ := h1
  exact ⟨⟨fun hn => (hOd hn).1 rfl, hnC, hnR⟩, hO,
    ⟨hC, hR, hCR⟩, fun a ha => (hOd ha).2⟩

theorem nodup_shift_push_keep {o n : Nat} {O A C R : List Nat}
    (ho : o ∉ O ++ (A ++ n :: (C ++ R)))
    (h1 : (O ++ (A ++ n :: (C ++ R))).Nodup) :
    (n :: (o :: (O ++ (C ++ (A ++ R))))).Nodup := by
  simp only [List.mem_append, List.mem_cons, not_or] at ho
  simp only [List.nodup_append, List.nodup_cons, List.mem_append,
    List.mem_cons, List.disjoint_left, not_or] at h1 ⊢
  obtain ⟨hoO, hoA, hon, hoC, hoR⟩ := ho
  obtain ⟨hO, ⟨hA, ⟨⟨hnC, hnR⟩, hC, hR, hCR⟩, hAd⟩, hOd⟩ := h1
  refine ⟨⟨fun h => hon h.symm, fun h => (hOd h).2.1 rfl, hnC,
      fun h => (hAd h).1 rfl, hnR⟩,
    ⟨hoO, hoC, hoA, hoR⟩, hO,
    ⟨hC, ⟨hA, hR, fun a ha => (hAd ha).2.2⟩,
      fun a ha => ⟨fun hA => (hAd hA).2.1 ha, hCR ha⟩⟩,
    fun a ha => ⟨(hOd ha).2.2.1, (hOd ha).1, (hOd ha).2.2.2⟩⟩


theorem mem_framesAllLabels :
    ∀ (fr : List (Nat × List STree)) (p : Nat × List STree), p ∈ fr →
      ∀ x ∈ STree.labelsList p.2, x ∈ framesAllLabels fr
  | [], p, hp, _, _ => absurd hp (List.not_mem_nil p)
  | q :: fr, p, hp, x, hx => by
      rw [framesAllLabels]
      rcases List.mem_cons.mp hp with rfl | hp
      · exact List.mem_append.mpr (.inl hx)
      · exact List.mem_append.mpr (.inr (mem_framesAllLabels fr p hp x hx))

theorem frameOk_update {σ : Nat → List Nat} {o : Nat} {l : List Nat}
    (p : Nat × List STree) (hok : FrameOk σ p) (hp1 : p.1 ≠ o)
    (hlab : o ∉ STree.labelsList p.2) :
    FrameOk (Function.update σ o l) p := by
  obtain ⟨h1, h2, h3⟩ := hok
  refine ⟨?_, h2, ?_⟩
  · rw [Function.update_noteq hp1]
    exact h1
  · rw [repList_congr σ (Function.update σ o l) p.2 ?_]
    · exact h3
    · intro m hm
      refine Function.update_noteq ?_ _ _
      intro he
      exact hlab (he ▸ hm)

theorem getLeavesLoop_frames :
    ∀ (fuel : Nat) (σ : Nat → List Nat) (fr : List (Nat × List STree))
      (acc : Finset Nat),
      (∀ p ∈ fr, FrameOk σ p) →
      (fr.map Prod.fst ++ framesAllLabels fr).Nodup →
      framesSize fr < fuel →
      ∃ σ', getLeavesLoop fuel σ (fr.map Prod.fst) acc =
        .ok (σ', framesLeaves fr ∪ acc) := by
  intro fuel
  induction fuel with
  | zero =>
      intro σ fr acc _ _ hsz
      omega
  | succ fuel ih =>
    intro σ fr acc hok hnd hsz
    match fr with
    | [] =>
        refine ⟨σ, ?_⟩
        simp [getLeavesLoop, framesLeaves]
    | (o, ts) :: rest =>
        obtain ⟨hσo, htne, hrep⟩ := hok (o, ts) (List.mem_cons_self _ _)
        rcases List.eq_nil_or_concat ts with rfl | ⟨us, tt, htts⟩
        · exact absurd rfl htne
        rw [List.concat_eq_append] at htts
        subst htts
        rcases tt with ⟨n, cs⟩
        simp only [List.map_append, List.map_cons, List.map_nil] at hσo
        rw [show STree.label (.node n cs) = n from rfl] at hσo
        have hlast : (σ o).getLast? = some n := by
          rw [hσo]; exact List.getLast?_concat _
        have hdrop : (σ o).dropLast = us.map STree.label := by
          rw [hσo]; exact List.dropLast_concat
        rw [repList_append] at hrep
        simp only [Bool.and_eq_true, STree.repList, STree.rep,
          Bool.and_true, decide_eq_true_eq] at hrep
        obtain ⟨hrepus, hσn, hrepcs⟩ := hrep
        -- normalize the Nodup hypothesis
        simp only [List.map_cons, framesAllLabels, labelsList_append,
          STree.labelsList, STree.labels, List.append_nil, List.cons_append,
          List.append_assoc, List.nodup_cons] at hnd
        obtain ⟨ho, hnd1⟩ := hnd
        -- basic separations
        have hnmem : n ∈ rest.map Prod.fst ++
            (STree.labelsList us ++ n ::
              (STree.labelsList cs ++ framesAllLabels rest)) := by
          simp
        have hno : n ≠ o := fun he => ho (he ▸ hnmem)
        have hoO : o ∉ rest.map Prod.fst := fun hm =>
          ho (List.mem_append.mpr (.inl hm))
        have hoA : o ∉ STree.labelsList us := fun hm =>
          ho (List.mem_append.mpr (.inr (List.mem_append.mpr (.inl hm))))
        have hoC : o ∉ STree.labelsList cs := fun hm =>
          ho (by
            refine List.mem_append.mpr (.inr (List.mem_append.mpr (.inr ?_)))
            exact List.mem_cons_of_mem n (List.mem_append.mpr (.inl hm)))
        have hoR : o ∉ framesAllLabels rest := fun hm =>
          ho (by
            refine List.mem_append.mpr (.inr (List.mem_append.mpr (.inr ?_)))
            exact List.mem_cons_of_mem n (List.mem_append.mpr (.inr hm)))
        -- frame facts preserved for the remaining frames
        have hrest : ∀ p ∈ rest,
            FrameOk (Function.update σ o (us.map STree.label)) p := by
          intro p hp
          refine frameOk_update p (hok p (List.mem_cons_of_mem _ hp)) ?_ ?_
          · intro he
            exact hoO (by rw [← he]; exact List.mem_map_of_mem Prod.fst hp)
          · exact fun hm => hoR (mem_framesAllLabels rest p hp o hm)
        have hσ'n : Function.update σ o (us.map STree.label) n =
            cs.map STree.label := by
          rw [Function.update_noteq hno]
          exact hσn
        -- size bookkeeping
        simp only [framesSize, sizeList_append, STree.sizeList,
          STree.size] at hsz
        -- unfold one loop step
        simp only [List.map_cons]
        rw [getLeavesLoop, hlast, hdrop]
        dsimp only
        rw [hσ'n]
        rcases us with _ | ⟨u, us'⟩
        · -- the popped frame becomes empty and is removed from the stack
          simp only [STree.labelsList, List.nil_append] at hnd1 ho
          simp only [List.map_nil] at hrest hσ'n
          simp only [List.map_nil, List.isEmpty_nil, eq_self_iff_true,
            if_true, List.nil_append]
          rcases cs with _ | ⟨c, cs'⟩
          · -- the popped node is a leaf
            simp only [STree.labelsList, List.nil_append] at hnd1
            simp only [List.map_nil, List.isEmpty_nil, eq_self_iff_true,
              if_true]
            obtain ⟨σ', hloop⟩ := ih (Function.update σ o [])
              rest (insert n acc) hrest (nodup_shift_one hnd1) (by omega)
            refine ⟨σ', ?_⟩
            have hset : framesLeaves rest ∪ insert n acc =
                framesLeaves ((o, [STree.node n []]) :: rest) ∪ acc := by
              ext x
              simp [framesLeaves, STree.leafLabelsList, STree.leafLabels]
            rw [hloop, hset]
          · -- the popped node has children: its frame is pushed
            simp only [List.map_cons, List.isEmpty_cons]
            rw [if_neg Bool.false_ne_true]
            have hrepcs' : STree.repList (Function.update σ o []) (c :: cs') =
                true := by
              rw [repList_congr σ (Function.update σ o []) (c :: cs') ?_]
              · exact hrepcs
              · intro m hm
                refine Function.update_noteq ?_ _ _
                intro he
                exact hoC (he ▸ hm)
            have hokn : FrameOk (Function.update σ o []) (n, c :: cs') :=
              ⟨hσ'n, by simp, hrepcs'⟩
            have hoknew : ∀ p ∈ (n, c :: cs') :: rest,
                FrameOk (Function.update σ o []) p := by
              intro p hp
              rcases List.mem_cons.mp hp with rfl | hp
              · exact hokn
              · exact hrest p hp
            have hndnew : (((n, c :: cs') :: rest).map Prod.fst ++
                framesAllLabels ((n, c :: cs') :: rest)).Nodup := by
              simp only [List.map_cons, framesAllLabels, List.cons_append]
              exact nodup_shift_push hnd1
            obtain ⟨σ', hloop⟩ := ih (Function.update σ o [])
              ((n, c :: cs') :: rest) acc hoknew hndnew
              (by simp only [framesSize, STree.sizeList, STree.size] at hsz ⊢
                  omega)
            simp only [List.map_cons] at hloop
            refine ⟨σ', ?_⟩
            have hset : framesLeaves ((n, c :: cs') :: rest) ∪ acc =
                framesLeaves ((o, [STree.node n (c :: cs')]) :: rest) ∪
                  acc := by
              ext x
              simp [framesLeaves, STree.leafLabelsList, STree.leafLabels]
            rw [hloop, hset]
        · -- the popped frame stays on the stack
          simp only [List.map_cons, List.isEmpty_cons]
          rw [if_neg Bool.false_ne_true]
          have hoko : FrameOk
              (Function.update σ o (STree.label u :: us'.map STree.label))
              (o, u :: us') := by
            refine ⟨Function.update_same _ _ _, by simp, ?_⟩
            rw [repList_congr σ
              (Function.update σ o (STree.label u :: us'.map STree.label))
              (u :: us') ?_]
            · exact hrepus
            · intro m hm
              refine Function.update_noteq ?_ _ _
              intro he
              exact hoA (he ▸ hm)
          rcases cs with _ | ⟨c, cs'⟩
          · -- the popped node is a leaf
            simp only [STree.labelsList, List.nil_append] at hnd1 ho
            simp only [List.map_nil, List.isEmpty_nil, eq_self_iff_true,
              if_true]
            have hoknew : ∀ p ∈ (o, u :: us') :: rest, FrameOk
                (Function.update σ o
                  (STree.label u :: us'.map STree.label)) p := by
              intro p hp
              rcases List.mem_cons.mp hp with rfl | hp
              · exact hoko
              · exact hrest p hp
            have hndnew : (((o, u :: us') :: rest).map Prod.fst ++
                framesAllLabels ((o, u :: us') :: rest)).Nodup := by
              simp only [List.map_cons, framesAllLabels, List.cons_append]
              exact nodup_shift_keep ho hnd1
            obtain ⟨σ', hloop⟩ := ih
              (Function.update σ o (STree.label u :: us'.map STree.label))
              ((o, u :: us') :: rest) (insert n acc) hoknew hndnew
              (by simp only [framesSize, STree.sizeList, STree.size] at hsz ⊢
                  omega)
            simp only [List.map_cons] at hloop
            refine ⟨σ', ?_⟩
            have hset : framesLeaves ((o, u :: us') :: rest) ∪ insert n acc =
                framesLeaves ((o, u :: us' ++ [STree.node n []]) :: rest) ∪
                  acc := by
              ext x
              simp [framesLeaves, STree.leafLabelsList, STree.leafLabels,
                leafLabelsList_append]
              tauto
            rw [hloop, hset]
          · -- the popped node has children: its frame is pushed on top
            simp only [List.map_cons, List.isEmpty_cons]
            rw [if_neg Bool.false_ne_true]
            have hrepcs' : STree.repList
                (Function.update σ o
                  (STree.label u :: us'.map STree.label)) (c :: cs') =
                true := by
              rw [repList_congr σ
                (Function.update σ o
                  (STree.label u :: us'.map STree.label)) (c :: cs') ?_]
              · exact hrepcs
              · intro m hm
                refine Function.update_noteq ?_ _ _
                intro he
                exact hoC (he ▸ hm)
            have hokn : FrameOk
                (Function.update σ o
                  (STree.label u :: us'.map STree.label)) (n, c :: cs') := by
              refine ⟨?_, by simp, hrepcs'⟩
              simpa using hσ'n
            have hoknew : ∀ p ∈ (n, c :: cs') :: (o, u :: us') :: rest,
                FrameOk (Function.update σ o
                  (STree.label u :: us'.map STree.label)) p := by
              intro p hp
              rcases List.mem_cons.mp hp with rfl | hp
              · exact hokn
              · rcases List.mem_cons.mp hp with rfl | hp
                · exact hoko
                · exact hrest p hp
            have hndnew : (((n, c :: cs') :: (o, u :: us') :: rest).map
                  Prod.fst ++
                framesAllLabels
                  ((n, c :: cs') :: (o, u :: us') :: rest)).Nodup := by
              simp only [List.map_cons, framesAllLabels, List.cons_append]
              exact nodup_shift_push_keep ho hnd1
            obtain ⟨σ', hloop⟩ := ih
              (Function.update σ o (STree.label u :: us'.map STree.label))
              ((n, c :: cs') :: (o, u :: us') :: rest) acc hoknew hndnew
              (by simp only [framesSize, STree.sizeList, STree.size] at hsz ⊢
                  omega)
            simp only [List.map_cons] at hloop
            refine ⟨σ', ?_⟩
            have hset : framesLeaves
                  ((n, c :: cs') :: (o, u :: us') :: rest) ∪ acc =
                framesLeaves
                  ((o, u :: us' ++ [STree.node n (c :: cs')]) :: rest) ∪
                  acc := by
              ext x
              simp [framesLeaves, STree.leafLabelsList, STree.leafLabels,
                leafLabelsList_append]
              tauto
            rw [hloop, hset]


/-- C4 amended: when the root's children attribute lists the roots of a
forest of finite trees with pairwise-distinct labels not containing the root
(the tree-shaped case; the children list itself non-empty, cf. the empty-case
slip of C5), `get_leaves` with sufficient fuel succeeds and returns exactly
the set of labels of the childless nodes of that forest, never including the
root. -/
theorem get_leaves_tree_spec (σ : Nat → List Nat) (root : Nat)
    (ts : List STree) (fuel : Nat)
    (hσ : σ root = ts.map STree.label) (hne : ts ≠ [])
    (hrep : STree.repList σ ts = true)
    (hnd : (root :: STree.labelsList ts).Nodup)
    (hfuel : STree.sizeList ts < fuel) :
    ∃ σ', get_leaves fuel σ root = .ok (σ', STree.leafLabelsList ts) ∧
      root ∉ STree.leafLabelsList ts := by
  have hndf : ([(root, ts)].map Prod.fst ++
      framesAllLabels [(root, ts)]).Nodup := by
    simpa [framesAllLabels] using hnd
  obtain ⟨σ', hloop⟩ := getLeavesLoop_frames fuel σ [(root, ts)] ∅
    (by
      intro p hp
      rcases List.mem_cons.mp hp with rfl | hp
      · exact ⟨hσ, hne, hrep⟩
      · simp at hp)
    hndf
    (by
      simp only [framesSize]
      omega)
  refine ⟨σ', ?_, ?_⟩
  · simpa [get_leaves, framesLeaves] using hloop
  · intro hmem
    exact (List.nodup_cons.mp hnd).1 (leafLabelsList_subset ts root hmem)

/-- C4 witness: the spec's example tree (root 0, children X=1 childless and
Y=2 with childless child Z=3) yields exactly `{1, 3}` = {X, Z}. -/
theorem get_leaves_tree_spec_witness :
    (∃ σ', get_leaves 10 sig0 0 = .ok (σ', STree.leafLabelsList ts0) ∧
      0 ∉ STree.leafLabelsList ts0) ∧
    STree.leafLabelsList ts0 = {1, 3} :=
  ⟨get_leaves_tree_spec sig0 0 ts0 10 rfl (by simp [ts0]) (by decide)
      (by decide) (by decide),
    by decide⟩

/-- C4 counterexample: on the acyclic children graph `sigd` (interior node 3
reachable both via 1 and via 2, with child 4), the childless reachable nodes
are exactly `{4}`, but `get_leaves` returns `{3, 4}`: the second visit of 3
sees its already-consumed children list and reports the interior node as a
leaf, so the claim fails on DAG-shaped structures. -/
theorem get_leaves_dag_counterexample :
    ((get_leaves 20 sigd 0).map Prod.snd).toOption =
      some ({3, 4} : Finset Nat) ∧
    sigd 3 = [4] ∧ ({3, 4} : Finset Nat) ≠ {4} :=
  ⟨by decide, rfl, by decide⟩

end Autobus
